import Mathlib

/-!
Verification of the QCStudy teaching notebooks.

The first notebook defines a placeholder kernel and a hand-written Gram-matrix
routine

  def kernel(x1, x2):
      return 0

  def gram(A, B):
      gram = np.zeros((len(A), len(B)))
      for id1, x1 in enumerate(A):
          for id2, x2 in enumerate(B):
              gram[id1, id2] = kernel(x1, x2)
      return gram

and feeds `gram(X_train, X_train)` and `gram(X_test, X_train)` to scikit-learn's
SVC.  The clustering notebook builds the pairwise Euclidean distance matrix `w`
and hands the simulated annealer the Ising model

  J, h = {}, {}
  for i in range(n_instances):
      h[i] = 0
      for j in range(i+1, n_instances):
          J[(i, j)] = w[i, j]

We embed these shallowly: numpy matrices become lists of rows of reals, the
in-place writes become functional updates folded over the enumerated loops, and
Python dicts become `Nat → Option ℝ` maps updated by insertion.
-/

namespace QCStudy

/-- The dummy kernel shipped in the notebook: it returns 0 on every pair. -/
def kernel {α : Type} (x1 x2 : α) : ℝ := 0

/-- `np.zeros((m, n))`: an `m × n` matrix of zeros, as a list of rows. -/
def zeros (m n : Nat) : List (List ℝ) :=
  List.replicate m (List.replicate n (0 : ℝ))

/-- The in-place write `g[i, j] = v` on a list-of-rows matrix.  Out-of-range
indices leave the matrix unchanged (the loops below only ever write in
range). -/
def setEntry (g : List (List ℝ)) (i j : Nat) (v : ℝ) : List (List ℝ) :=
  g.set i ((g.getD i []).set j v)

/-- Read the entry of a list-of-rows matrix at row `i`, column `j`
(0 when out of range). -/
def entry (g : List (List ℝ)) (i j : Nat) : ℝ :=
  (g.getD i []).getD j 0

/-- The notebook's `gram`, with the ambient `kernel` binding made an explicit
argument: allocate `np.zeros((len(A), len(B)))`, then run the nested
`enumerate` loops, each iteration performing the write
`gram[id1, id2] = kernel(x1, x2)`. -/
def gram {α : Type} (kernel : α → α → ℝ) (A B : List α) : List (List ℝ) :=
  A.enum.foldl
    (fun g p1 => B.enum.foldl (fun g2 p2 => setEntry g2 p1.1 p2.1 (kernel p1.2 p2.2)) g)
    (zeros A.length B.length)

/-- The sequence of index pairs `(id1, id2)` at which the nested loops of
`gram` evaluate the kernel, in execution order: the same two folds, each
iteration recording its pair instead of performing its write. -/
def gramCalls {α : Type} (A B : List α) : List (Nat × Nat) :=
  A.enum.foldl
    (fun t p1 => B.enum.foldl (fun t2 p2 => t2 ++ [(p1.1, p2.1)]) t)
    []

/-- Strict row-major (lexicographic) order on index pairs. -/
def lexLt (p q : Nat × Nat) : Prop :=
  p.1 < q.1 ∨ (p.1 = q.1 ∧ p.2 < q.2)

instance : DecidableRel lexLt := fun p q => by
  unfold lexLt; infer_instance

/-- The local state of a call to `gram`: the two argument lists `A` and `B`
and the freshly allocated output matrix `gram` (field `out`). -/
structure GramEnv (α : Type) where
  A : List α
  B : List α
  out : List (List ℝ)

/-- The body of `gram` as a state transformer: allocate `out`, then run the
nested loops, each iteration writing one entry of `out`.  The loops read the
lists out of the current state, so the theorem that `A` and `B` are unchanged
is a statement about the code, not baked into the definition. -/
def gramBody {α : Type} (kernel : α → α → ℝ) (s : GramEnv α) : GramEnv α :=
  s.A.enum.foldl
    (fun t p1 => t.B.enum.foldl
      (fun t2 p2 => GramEnv.mk t2.A t2.B (setEntry t2.out p1.1 p2.1 (kernel p1.2 p2.2))) t)
    (GramEnv.mk s.A s.B (zeros s.A.length s.B.length))

/-- A Python dict, as a partial map; `d[key] = v` is an insertion. -/
def dictInsert {κ ρ : Type} [DecidableEq κ] (d : κ → Option ρ) (key : κ) (v : ρ) :
    κ → Option ρ :=
  fun key2 => if key2 = key then some v else d key2

/-- The empty Python dict `{}`. -/
def emptyDict {κ ρ : Type} : κ → Option ρ := fun _ => none

/-- The clustering notebook's distance matrix
`w = np.zeros((n, n)); for i, j in product(range(n), range(n)): w[i, j] = norm(data[i] - data[j])`.
The iteration order of `itertools.product` is row-major.  `np.linalg.norm` of a
difference of rows is library code external to the repository, so the distance
`dist x y` it computes is an explicit parameter. -/
def wMatrix {α : Type} (dist : α → α → ℝ) (data : Nat → α) (n : Nat) : List (List ℝ) :=
  ((List.range n).flatMap (fun i => (List.range n).map (fun j => (i, j)))).foldl
    (fun w p => setEntry w p.1 p.2 (dist (data p.1) (data p.2)))
    (zeros n n)

/-- The annealer interface loop of the clustering notebook:
`J, h = {}, {}; for i in range(n): h[i] = 0; for j in range(i+1, n): J[(i, j)] = w[i, j]`.
Returns the pair `(h, J)` of finished dicts. -/
def annealHJ (w : List (List ℝ)) (n : Nat) : (Nat → Option ℝ) × (Nat × Nat → Option ℝ) :=
  (List.range n).foldl
    (fun hJ i =>
      (dictInsert hJ.1 i 0,
       (List.range' (i + 1) (n - (i + 1))).foldl
         (fun J j => dictInsert J (i, j) (entry w i j)) hJ.2))
    (emptyDict, emptyDict)

/-! ### Basic list helpers for the imperative-write embedding -/

lemma set_getD_self {β : Type} (l : List β) (i : Nat) (d : β) :
    l.set i (l.getD i d) = l := by
  induction l generalizing i with
  | nil => rfl
  | cons a l ih =>
    cases i with
    | zero => simp [List.getD]
    | succ i => simp [List.getD] at ih ⊢; exact ih i

lemma getD_out_of_range {β : Type} (l : List β) (i : Nat) (d : β)
    (h : l.length ≤ i) : l.getD i d = d := by
  rw [List.getD_eq_getElem?_getD, List.getElem?_eq_none h]
  rfl

lemma getD_set_self {β : Type} (l : List β) (i : Nat) (r d : β) :
    (l.set i r).getD i d = if i < l.length then r else l.getD i d := by
  by_cases h : i < l.length
  · rw [List.getD_eq_getElem?_getD, List.getElem?_set_self h]
    simp [h]
  · rw [List.set_eq_of_length_le (Nat.le_of_not_lt h)]
    simp [h]

lemma getD_setEntry_self (M : List (List ℝ)) (i j : Nat) (v : ℝ) :
    (setEntry M i j v).getD i [] = (M.getD i []).set j v := by
  unfold setEntry
  rw [getD_set_self]
  split
  · rfl
  · rename_i h
    rw [getD_out_of_range M i [] (Nat.le_of_not_lt h)]
    rfl

lemma set_append_cons {β : Type} (pre : List β) (s : β) (suf : List β) (v : β) :
    (pre ++ s :: suf).set pre.length v = pre ++ v :: suf := by
  induction pre with
  | nil => rfl
  | cons a pre ih => simp [List.set, ih]

lemma getD_append_cons {β : Type} (pre : List β) (s : β) (suf : List β) (d : β) :
    (pre ++ s :: suf).getD pre.length d = s := by
  induction pre with
  | nil => rfl
  | cons a pre ih => simpa [List.getD] using ih

/-! ### The inner loop writes one row; the outer loop writes the rows in turn -/

/-- The inner `for id2, x2 in enumerate(B)` loop at a fixed outer index `i`
only rewrites row `i` of the matrix, leaving every other row alone. -/
lemma foldl_setEntry_row {α : Type} (k : α → α → ℝ) (x1 : α) (i : Nat) :
    ∀ (bs : List α) (n : Nat) (M : List (List ℝ)),
    (List.enumFrom n bs).foldl (fun g p => setEntry g i p.1 (k x1 p.2)) M =
      M.set i ((List.enumFrom n bs).foldl (fun r p => r.set p.1 (k x1 p.2)) (M.getD i [])) := by
  intro bs
  induction bs with
  | nil =>
    intro n M
    rw [show List.enumFrom n ([] : List α) = [] from rfl, List.foldl_nil, List.foldl_nil,
        set_getD_self]
  | cons b bs ih =>
    intro n M
    rw [List.enumFrom_cons, List.foldl_cons, ih (n + 1) (setEntry M i n (k x1 b)),
        List.foldl_cons]
    show (setEntry M i n (k x1 b)).set i _ = _
    rw [getD_setEntry_self]
    unfold setEntry
    rw [List.set_set]

/-- Writing the positions `pre.length, pre.length + 1, …` of a row in order
replaces the tail past `pre` by the mapped values. -/
lemma foldl_set_row {α : Type} (f : α → ℝ) :
    ∀ (bs : List α) (pre suf : List ℝ), bs.length ≤ suf.length →
    (List.enumFrom pre.length bs).foldl (fun r p => r.set p.1 (f p.2)) (pre ++ suf) =
      pre ++ bs.map f ++ suf.drop bs.length := by
  intro bs
  induction bs with
  | nil => intro pre suf _; simp
  | cons b bs ih =>
    intro pre suf hlen
    cases suf with
    | nil => simp at hlen
    | cons s suf =>
      rw [List.enumFrom_cons, List.foldl_cons, set_append_cons]
      have : pre ++ f b :: suf = (pre ++ [f b]) ++ suf := by simp
      rw [this]
      have hstep := ih (pre ++ [f b]) suf (by simpa using Nat.succ_le_succ_iff.mp hlen)
      simp only [List.length_append, List.length_cons, List.length_nil, Nat.zero_add] at hstep
      rw [hstep]
      simp [List.map_cons, List.drop_succ_cons]

/-- The outer `for id1, x1 in enumerate(A)` loop, started on a matrix whose
first `pre.length` rows are already final and whose remaining rows all have
`B.length` columns, replaces the next `as.length` rows by the mapped rows. -/
lemma foldl_gram_outer {α : Type} (k : α → α → ℝ) (B : List α) :
    ∀ (as : List α) (pre suf : List (List ℝ)), as.length ≤ suf.length →
    (∀ r ∈ suf, r.length = B.length) →
    (List.enumFrom pre.length as).foldl
      (fun g p1 => B.enum.foldl (fun g2 p2 => setEntry g2 p1.1 p2.1 (k p1.2 p2.2)) g)
      (pre ++ suf) =
      pre ++ as.map (fun x1 => B.map (fun x2 => k x1 x2)) ++ suf.drop as.length := by
  intro as
  induction as with
  | nil => intro pre suf _ _; simp
  | cons a as ih =>
    intro pre suf hlen hrows
    cases suf with
    | nil => simp at hlen
    | cons s suf =>
      rw [List.enumFrom_cons, List.foldl_cons]
      have hrow : B.enum.foldl (fun g2 p2 => setEntry g2 pre.length p2.1 (k a p2.2))
          (pre ++ s :: suf) =
          (pre ++ s :: suf).set pre.length (B.map (fun x2 => k a x2)) := by
        rw [show B.enum = List.enumFrom 0 B from rfl,
            foldl_setEntry_row k a pre.length B 0 (pre ++ s :: suf),
            getD_append_cons]
        have hs : s.length = B.length := hrows s (by simp)
        have h0 := foldl_set_row (fun x2 => k a x2) B ([] : List ℝ) s (by rw [hs])
        simp only [List.length_nil, List.nil_append] at h0
        rw [h0, ← hs, List.drop_length]
        simp
      rw [hrow, set_append_cons]
      have : pre ++ B.map (fun x2 => k a x2) :: suf =
          (pre ++ [B.map (fun x2 => k a x2)]) ++ suf := by simp
      rw [this]
      have hstep := ih (pre ++ [B.map (fun x2 => k a x2)]) suf
        (by simpa using Nat.succ_le_succ_iff.mp hlen)
        (fun r hr => hrows r (by simp [hr]))
      simp only [List.length_append, List.length_cons, List.length_nil, Nat.zero_add] at hstep
      rw [hstep]
      simp [List.map_cons, List.drop_succ_cons]

/-- Master characterisation: the imperative nested-loop `gram` computes exactly
the matrix of pairwise kernel evaluations, row `i` being
`[k A[i] B[0], …, k A[i] B[|B|-1]]`. -/
theorem gram_eq_map {α : Type} (k : α → α → ℝ) (A B : List α) :
    gram k A B = A.map (fun x1 => B.map (fun x2 => k x1 x2)) := by
  unfold gram
  have h := foldl_gram_outer k B A ([] : List (List ℝ)) (zeros A.length B.length)
    (by simp [zeros]) (by intro r hr; simp [zeros] at hr; simp [hr])
  simp only [List.length_nil, List.nil_append] at h
  rw [show A.enum = List.enumFrom 0 A from rfl, h]
  simp [zeros]

/-! ### Shape and entry characterisation of `gram` -/

lemma length_gram {α : Type} (k : α → α → ℝ) (A B : List α) :
    (gram k A B).length = A.length := by
  rw [gram_eq_map]; simp

lemma row_length_gram {α : Type} (k : α → α → ℝ) (A B : List α) :
    ∀ r ∈ gram k A B, r.length = B.length := by
  rw [gram_eq_map]
  intro r hr
  obtain ⟨a, _, rfl⟩ := List.mem_map.mp hr
  simp

lemma entry_gram {α : Type} (k : α → α → ℝ) (A B : List α) (i j : Nat)
    (hi : i < A.length) (hj : j < B.length) :
    entry (gram k A B) i j = k (A.get ⟨i, hi⟩) (B.get ⟨j, hj⟩) := by
  rw [gram_eq_map]
  unfold entry
  simp only [List.getD_eq_getElem?_getD, List.getElem?_map, List.getElem?_eq_getElem hi,
    List.getElem?_eq_getElem hj, Option.map_some', Option.getD_some]
  simp [List.get_eq_getElem]

/-! ### Claim theorems about `gram` -/

/-- Claim C1: for every pair of finite sequences `A`, `B`, `gram` returns a
matrix of shape `(|A|, |B|)` whose entry at row `i`, column `j` equals
`kernel (A[i]) (B[j])` for all in-range `i`, `j`. -/
theorem gram_shape_and_entries {α : Type} (k : α → α → ℝ) (A B : List α) :
    (gram k A B).length = A.length ∧
    (∀ r ∈ gram k A B, r.length = B.length) ∧
    ∀ (i j : Nat) (hi : i < A.length) (hj : j < B.length),
      entry (gram k A B) i j = k (A.get ⟨i, hi⟩) (B.get ⟨j, hj⟩) :=
  ⟨length_gram k A B, row_length_gram k A B, fun i j hi hj => entry_gram k A B i j hi hj⟩

/-- Witness for C1 at `A = [5, 7]`, `B = [3]`, `k x y = x + y`. -/
theorem gram_shape_and_entries_witness :
    entry (gram (fun x y : ℕ => (x : ℝ) + (y : ℝ)) [5, 7] [3]) 0 0 =
      ((5 : ℕ) : ℝ) + ((3 : ℕ) : ℝ) :=
  (gram_shape_and_entries (fun x y : ℕ => (x : ℝ) + (y : ℝ)) [5, 7] [3]).2.2 0 0
    (by decide) (by decide)

/-- Claim C2: with a symmetric kernel, `gram A A` is a square symmetric
matrix, and on two sequences the shape is `(|A|, |B|)` (rectangular when the
lengths differ). -/
theorem gram_symmetric {α : Type} (k : α → α → ℝ) (A : List α)
    (hk : ∀ x y, k x y = k y x) :
    (gram k A A).length = A.length ∧
    (∀ r ∈ gram k A A, r.length = A.length) ∧
    (∀ i j : Nat, i < A.length → j < A.length →
      entry (gram k A A) i j = entry (gram k A A) j i) ∧
    ∀ B : List α, (gram k A B).length = A.length ∧ ∀ r ∈ gram k A B, r.length = B.length := by
  refine ⟨length_gram k A A, row_length_gram k A A, ?_, fun B => ⟨length_gram k A B, row_length_gram k A B⟩⟩
  intro i j hi hj
  rw [entry_gram k A A i j hi hj, entry_gram k A A j i hj hi, hk]

/-- Witness for C2 at `A = [1, 2]`, `k x y = x * y`. -/
theorem gram_symmetric_witness :
    entry (gram (fun x y : ℕ => ((x * y : ℕ) : ℝ)) [1, 2] [1, 2]) 0 1 =
      entry (gram (fun x y : ℕ => ((x * y : ℕ) : ℝ)) [1, 2] [1, 2]) 1 0 :=
  (gram_symmetric (fun x y : ℕ => ((x * y : ℕ) : ℝ)) [1, 2]
    (fun x y => by
      show ((x * y : ℕ) : ℝ) = ((y * x : ℕ) : ℝ)
      rw [Nat.mul_comm])).2.2.1 0 1 (by decide) (by decide)

/-- Claim C3: `gram` is generic in the kernel: for every caller-supplied
two-argument real-valued function `k`, the result is exactly the matrix of
pairwise `k`-evaluations (row `i` lists `k (A[i]) (B[j])` for `j` along `B`). -/
theorem gram_generic_in_kernel {α : Type} :
    ∀ (k : α → α → ℝ) (A B : List α),
      gram k A B = A.map (fun x1 => B.map (fun x2 => k x1 x2)) :=
  fun k A B => gram_eq_map k A B

/-- Claim C4: `gram` is total with no edge cases: on every pair of lists,
including empty ones, it returns a `(|A|, |B|)`-shaped matrix; with `A = []`
the result is the empty matrix, and with `B = []` it is `|A|` empty rows. -/
theorem gram_no_edge_cases {α : Type} (k : α → α → ℝ) :
    (∀ A B : List α, (gram k A B).length = A.length ∧
      ∀ r ∈ gram k A B, r.length = B.length) ∧
    (∀ B : List α, gram k [] B = []) ∧
    (∀ A : List α, gram k A [] = List.replicate A.length []) := by
  refine ⟨fun A B => ⟨length_gram k A B, row_length_gram k A B⟩, ?_, ?_⟩
  · intro B; rw [gram_eq_map]; rfl
  · intro A
    rw [gram_eq_map]
    simp only [List.map_nil]
    exact List.map_const A []

/-- Witness for C4 on concrete inputs, empty and nonempty. -/
theorem gram_no_edge_cases_witness :
    (gram (fun x y : ℕ => kernel x y) [4] [2, 3]).length = 1 ∧
    gram (fun x y : ℕ => kernel x y) [] [2, 3] = [] ∧
    gram (fun x y : ℕ => kernel x y) [4] [] = [[]] :=
  ⟨((gram_no_edge_cases (fun x y : ℕ => kernel x y)).1 [4] [2, 3]).1,
   (gram_no_edge_cases (fun x y : ℕ => kernel x y)).2.1 [2, 3],
   (gram_no_edge_cases (fun x y : ℕ => kernel x y)).2.2 [4]⟩

/-! ### The state-passing form of `gram` -/

lemma foldl_env_inner {α : Type} (k : α → α → ℝ) (p1 : Nat × α) :
    ∀ (l2 : List (Nat × α)) (t : GramEnv α),
    l2.foldl (fun t2 p2 => GramEnv.mk t2.A t2.B (setEntry t2.out p1.1 p2.1 (k p1.2 p2.2))) t =
      GramEnv.mk t.A t.B (l2.foldl (fun g2 p2 => setEntry g2 p1.1 p2.1 (k p1.2 p2.2)) t.out) := by
  intro l2
  induction l2 with
  | nil => intro t; rfl
  | cons p2 l2 ih =>
    intro t
    rw [List.foldl_cons, ih, List.foldl_cons]

lemma foldl_env_outer {α : Type} (k : α → α → ℝ) :
    ∀ (l : List (Nat × α)) (Aa Bb : List α) (o : List (List ℝ)),
    l.foldl
      (fun t p1 => t.B.enum.foldl
        (fun t2 p2 => GramEnv.mk t2.A t2.B (setEntry t2.out p1.1 p2.1 (k p1.2 p2.2))) t)
      (GramEnv.mk Aa Bb o) =
      GramEnv.mk Aa Bb
        (l.foldl
          (fun g p1 => Bb.enum.foldl (fun g2 p2 => setEntry g2 p1.1 p2.1 (k p1.2 p2.2)) g)
          o) := by
  intro l
  induction l with
  | nil => intro Aa Bb o; rfl
  | cons p1 l ih =>
    intro Aa Bb o
    rw [List.foldl_cons, show (GramEnv.mk Aa Bb o).B = Bb from rfl,
        foldl_env_inner k p1 Bb.enum (GramEnv.mk Aa Bb o), ih, List.foldl_cons]

/-- Running the body of `gram` from a state `⟨A, B, out⟩` only replaces the
`out` field, by the value `gram` computes from `A` and `B`. -/
lemma gramBody_eq {α : Type} (k : α → α → ℝ) (s : GramEnv α) :
    gramBody k s = GramEnv.mk s.A s.B (gram k s.A s.B) := by
  unfold gramBody gram
  rw [foldl_env_outer]

/-- Claim C8: `gram` does not modify its arguments: after the body runs, the
`A` and `B` components of the state are unchanged, and the only array written
is the freshly allocated result matrix, which ends up holding `gram A B`. -/
theorem gram_frame {α : Type} (k : α → α → ℝ) (s : GramEnv α) :
    (gramBody k s).A = s.A ∧ (gramBody k s).B = s.B ∧
    (gramBody k s).out = gram k s.A s.B := by
  rw [gramBody_eq]
  exact ⟨rfl, rfl, rfl⟩

/-- Claim C7: `gram` is deterministic and stateless: equal input sequences
give equal output matrices, and the result is independent of anything in the
state other than `A` and `B` (in particular of the prior contents of `out`). -/
theorem gram_deterministic {α : Type} (k : α → α → ℝ) (A B A2 B2 : List α)
    (s s2 : GramEnv α) (hA : A = A2) (hB : B = B2)
    (hsA : s.A = s2.A) (hsB : s.B = s2.B) :
    gram k A B = gram k A2 B2 ∧ (gramBody k s).out = (gramBody k s2).out := by
  constructor
  · rw [hA, hB]
  · rw [gramBody_eq, gramBody_eq, hsA, hsB]

/-- Witness for C7: two runs on equal lists agree, even from states whose
initial `out` fields differ. -/
theorem gram_deterministic_witness :
    gram (fun x y : ℕ => kernel x y) [1, 2] [3] = gram (fun x y : ℕ => kernel x y) [1, 2] [3] ∧
    (gramBody (fun x y : ℕ => kernel x y) (GramEnv.mk [1, 2] [3] [])).out =
      (gramBody (fun x y : ℕ => kernel x y) (GramEnv.mk [1, 2] [3] [[9]])).out :=
  gram_deterministic (fun x y : ℕ => kernel x y) [1, 2] [3] [1, 2] [3]
    (GramEnv.mk [1, 2] [3] []) (GramEnv.mk [1, 2] [3] [[9]]) rfl rfl rfl rfl

/-- Claim C9: the shipped placeholder kernel returns 0 everywhere, so `gram`
returns the all-zeros matrix on every pair of inputs; in particular both the
training matrix `gram X_train X_train` and the test matrix
`gram X_test X_train` fed to the SVM are all zeros. -/
theorem gram_dummy_kernel_zero {α : Type} :
    (∀ A B : List α, gram (fun x1 x2 => kernel x1 x2) A B = zeros A.length B.length) ∧
    ∀ Xtrain Xtest : List α,
      gram (fun x1 x2 => kernel x1 x2) Xtrain Xtrain = zeros Xtrain.length Xtrain.length ∧
      gram (fun x1 x2 => kernel x1 x2) Xtest Xtrain = zeros Xtest.length Xtrain.length := by
  have hz : ∀ A B : List α,
      gram (fun x1 x2 => kernel x1 x2) A B = zeros A.length B.length := by
    intro A B
    rw [gram_eq_map]
    unfold kernel zeros
    calc A.map (fun _ => B.map (fun _ => (0 : ℝ)))
        = A.map (fun _ => List.replicate B.length (0 : ℝ)) := by
          rw [show (fun (_ : α) => B.map (fun _ => (0 : ℝ))) =
            (fun (_ : α) => List.replicate B.length (0 : ℝ)) from
              funext (fun _ => List.map_const B 0)]
      _ = List.replicate A.length (List.replicate B.length (0 : ℝ)) :=
          List.map_const A _
  exact ⟨hz, fun Xtrain Xtest => ⟨hz Xtrain Xtrain, hz Xtest Xtrain⟩⟩

/-! ### The kernel-evaluation trace of `gram` -/

lemma foldl_append_blocks {β γ : Type} (g : β → List γ) :
    ∀ (l : List β) (t0 : List γ),
    l.foldl (fun t x => t ++ g x) t0 = t0 ++ l.flatMap g := by
  intro l
  induction l with
  | nil => intro t0; simp
  | cons b l ih =>
    intro t0
    rw [List.foldl_cons, ih, List.flatMap_cons, List.append_assoc]

/-- The nested loops evaluate the kernel at exactly the row-major enumeration
of the index rectangle. -/
lemma gramCalls_eq {α : Type} (A B : List α) :
    gramCalls A B =
      (List.range A.length).flatMap
        (fun i => (List.range B.length).map (fun j => (i, j))) := by
  unfold gramCalls
  have h1 : ∀ (p1 : Nat × α) (t : List (Nat × Nat)),
      B.enum.foldl (fun t2 p2 => t2 ++ [(p1.1, p2.1)]) t =
        t ++ B.enum.map (fun p2 => (p1.1, p2.1)) := by
    intro p1 t
    rw [foldl_append_blocks (fun p2 : Nat × α => [(p1.1, p2.1)]) B.enum t,
        ← List.map_eq_flatMap]
  simp only [h1]
  rw [foldl_append_blocks, List.nil_append]
  calc A.enum.flatMap (fun p1 => B.enum.map (fun p2 => (p1.1, p2.1)))
      = (A.enum.map Prod.fst).flatMap
          (fun i => (B.enum.map Prod.fst).map (fun j => (i, j))) := by
        rw [List.flatMap_map]
        congr 1
        funext p1
        rw [List.map_map]
        rfl
    _ = (List.range A.length).flatMap
          (fun i => (List.range B.length).map (fun j => (i, j))) := by
        rw [List.enum_map_fst, List.enum_map_fst]

lemma count_eq_one_of_mem_nodup {γ : Type} [BEq γ] [LawfulBEq γ] {a : γ} :
    ∀ {l : List γ}, l.Nodup → a ∈ l → l.count a = 1 := by
  intro l
  induction l with
  | nil => intro _ hm; cases hm
  | cons b l ih =>
    intro hn hm
    obtain ⟨hb, hn2⟩ := List.nodup_cons.mp hn
    by_cases hab : a = b
    · subst hab
      rw [List.count_cons_self, List.count_eq_zero.mpr hb]
    · rw [List.count_cons_of_ne hab]
      exact ih hn2 ((List.mem_cons.mp hm).resolve_left hab)

lemma count_rowmajor (m n i j : Nat) :
    ((List.range m).flatMap (fun i2 => (List.range n).map (fun j2 => (i2, j2)))).count (i, j) =
      if i < m ∧ j < n then 1 else 0 := by
  have heq : (List.range m).flatMap (fun i2 => (List.range n).map (fun j2 => (i2, j2))) =
      (List.range m) ×ˢ (List.range n) := rfl
  rw [heq]
  by_cases h : i < m ∧ j < n
  · rw [if_pos h]
    exact count_eq_one_of_mem_nodup
      ((List.nodup_range m).product (List.nodup_range n))
      (List.mem_product.mpr ⟨List.mem_range.mpr h.1, List.mem_range.mpr h.2⟩)
  · rw [if_neg h, List.count_eq_zero]
    intro hmem
    exact h (by simpa [List.mem_product, List.mem_range] using hmem)

lemma pairwise_lex_rowmajor (m n : Nat) :
    List.Pairwise lexLt
      ((List.range m).flatMap (fun i => (List.range n).map (fun j => (i, j)))) := by
  induction m with
  | zero => simp
  | succ m ih =>
    rw [List.range_succ, List.flatMap_append, List.pairwise_append]
    refine ⟨ih, ?_, ?_⟩
    · simp only [List.flatMap_cons, List.flatMap_nil, List.append_nil]
      rw [List.pairwise_map]
      exact (List.pairwise_lt_range n).imp (fun h => Or.inr ⟨rfl, h⟩)
    · intro a ha b hb
      obtain ⟨i, hi, hai⟩ := List.mem_flatMap.mp ha
      obtain ⟨j, _, rfl⟩ := List.mem_map.mp hai
      simp only [List.flatMap_cons, List.flatMap_nil, List.append_nil] at hb
      obtain ⟨j2, _, rfl⟩ := List.mem_map.mp hb
      exact Or.inl (List.mem_range.mp hi)

/-- Claim C5: the nested loops of `gram` perform exactly `|A| * |B|` kernel
evaluations, one per in-range index pair `(i, j)` and none elsewhere, and the
trace of calls is a finite list for every pair of finite inputs. -/
theorem gram_call_count {α : Type} (A B : List α) :
    (gramCalls A B).length = A.length * B.length ∧
    ∀ i j : Nat, (gramCalls A B).count (i, j) =
      if i < A.length ∧ j < B.length then 1 else 0 := by
  constructor
  · rw [gramCalls_eq, List.length_flatMap]
    have hmap : List.map
        (List.length ∘ fun i => (List.range B.length).map (fun j => (i, j)))
        (List.range A.length) = List.replicate A.length B.length := by
      rw [show (List.length ∘ fun i => (List.range B.length).map (fun j => (i, j))) =
          Function.const Nat B.length from funext (fun i => by
            simp [Function.comp, List.length_map, List.length_range])]
      rw [List.map_const, List.length_range]
    rw [hmap, List.sum_replicate, smul_eq_mul]
  · intro i j
    rw [gramCalls_eq]
    exact count_rowmajor A.length B.length i j

/-- Claim C6: the kernel evaluations happen in row-major order: the trace is
exactly the row-major enumeration of the index rectangle (outer loop over `A`,
inner over `B`), and it is strictly increasing in the lexicographic order, so
the call at `(i, j)` precedes the call at `(i2, j2)` whenever `i < i2`, or
`i = i2` and `j < j2`. -/
theorem gram_call_order {α : Type} (A B : List α) :
    gramCalls A B =
      (List.range A.length).flatMap
        (fun i => (List.range B.length).map (fun j => (i, j))) ∧
    List.Pairwise lexLt (gramCalls A B) := by
  refine ⟨gramCalls_eq A B, ?_⟩
  rw [gramCalls_eq]
  exact pairwise_lex_rowmajor A.length B.length

/-! ### The clustering notebook: distance matrix and Ising model -/

lemma foldl_flatMap {β γ δ : Type} (g : β → List γ) (f : δ → γ → δ) :
    ∀ (l : List β) (init : δ),
    (l.flatMap g).foldl f init = l.foldl (fun acc x => (g x).foldl f acc) init := by
  intro l
  induction l with
  | nil => intro init; rfl
  | cons b l ih =>
    intro init
    rw [List.flatMap_cons, List.foldl_append, ih, List.foldl_cons]

lemma enumFrom_range' : ∀ (n s : Nat),
    List.enumFrom s (List.range' s n) = (List.range' s n).map (fun i => (i, i)) := by
  intro n
  induction n with
  | zero => intro s; rfl
  | succ n ih =>
    intro s
    rw [List.range'_succ, List.enumFrom_cons, ih (s + 1), List.map_cons]

lemma enum_range (n : Nat) :
    (List.range n).enum = (List.range n).map (fun i => (i, i)) := by
  rw [List.range_eq_range']
  exact enumFrom_range' n 0

/-- The product-loop construction of `w` coincides with running `gram` on the
index list with the pointwise distance as the kernel: both perform the same
row-major sequence of writes into `np.zeros((n, n))`. -/
lemma wMatrix_eq_gram {α : Type} (dist : α → α → ℝ) (data : Nat → α) (n : Nat) :
    wMatrix dist data n =
      gram (fun i j => dist (data i) (data j)) (List.range n) (List.range n) := by
  unfold wMatrix gram
  rw [foldl_flatMap, enum_range, List.foldl_map, List.length_range]
  simp only [List.foldl_map]

lemma entry_wMatrix {α : Type} (dist : α → α → ℝ) (data : Nat → α) (n : Nat)
    (i j : Nat) (hi : i < n) (hj : j < n) :
    entry (wMatrix dist data n) i j = dist (data i) (data j) := by
  rw [wMatrix_eq_gram]
  have hi2 : i < (List.range n).length := by rw [List.length_range]; exact hi
  have hj2 : j < (List.range n).length := by rw [List.length_range]; exact hj
  rw [entry_gram (fun i j => dist (data i) (data j)) (List.range n) (List.range n) i j hi2 hj2]
  simp [List.get_eq_getElem, List.getElem_range]

lemma annealHJ_inner (w : List (List ℝ)) (i : Nat) :
    ∀ (js : List Nat) (J0 : Nat × Nat → Option ℝ) (key : Nat × Nat),
    (js.foldl (fun J j => dictInsert J (i, j) (entry w i j)) J0) key =
      if key.1 = i ∧ key.2 ∈ js then some (entry w i key.2) else J0 key := by
  intro js
  induction js with
  | nil => intro J0 key; simp
  | cons j js ih =>
    intro J0 key
    rw [List.foldl_cons, ih]
    by_cases h1 : key.1 = i ∧ key.2 ∈ js
    · rw [if_pos h1, if_pos ⟨h1.1, List.mem_cons.mpr (Or.inr h1.2)⟩]
    · rw [if_neg h1]
      unfold dictInsert
      by_cases h2 : key = (i, j)
      · subst h2
        simp [List.mem_cons]
      · rw [if_neg h2]
        by_cases h3 : key.1 = i ∧ key.2 ∈ j :: js
        · exfalso
          rcases List.mem_cons.mp h3.2 with h4 | h4
          · exact h2 (Prod.ext h3.1 h4)
          · exact h1 ⟨h3.1, h4⟩
        · rw [if_neg h3]

lemma annealHJ_h (w : List (List ℝ)) (N : Nat) :
    ∀ (l : List Nat) (init : (Nat → Option ℝ) × (Nat × Nat → Option ℝ)) (key : Nat),
    ((l.foldl (fun hJ i =>
        (dictInsert hJ.1 i 0,
         (List.range' (i + 1) (N - (i + 1))).foldl
           (fun J j => dictInsert J (i, j) (entry w i j)) hJ.2)) init).1) key =
      if key ∈ l then some 0 else init.1 key := by
  intro l
  induction l with
  | nil => intro init key; simp
  | cons i l ih =>
    intro init key
    rw [List.foldl_cons, ih]
    by_cases h1 : key ∈ l
    · rw [if_pos h1, if_pos (List.mem_cons.mpr (Or.inr h1))]
    · rw [if_neg h1]
      show dictInsert init.1 i 0 key = _
      unfold dictInsert
      by_cases h2 : key = i
      · rw [if_pos h2, if_pos (by rw [h2]; exact List.mem_cons_self i l)]
      · rw [if_neg h2, if_neg (by
          intro hc
          rcases List.mem_cons.mp hc with h4 | h4
          · exact h2 h4
          · exact h1 h4)]

lemma annealHJ_J (w : List (List ℝ)) (N : Nat) :
    ∀ (l : List Nat) (init : (Nat → Option ℝ) × (Nat × Nat → Option ℝ)) (key : Nat × Nat),
    ((l.foldl (fun hJ i =>
        (dictInsert hJ.1 i 0,
         (List.range' (i + 1) (N - (i + 1))).foldl
           (fun J j => dictInsert J (i, j) (entry w i j)) hJ.2)) init).2) key =
      if key.1 ∈ l ∧ key.2 ∈ List.range' (key.1 + 1) (N - (key.1 + 1)) then
        some (entry w key.1 key.2)
      else init.2 key := by
  intro l
  induction l with
  | nil => intro init key; simp
  | cons i l ih =>
    intro init key
    rw [List.foldl_cons, ih]
    by_cases h1 : key.1 ∈ l ∧ key.2 ∈ List.range' (key.1 + 1) (N - (key.1 + 1))
    · rw [if_pos h1, if_pos ⟨List.mem_cons.mpr (Or.inr h1.1), h1.2⟩]
    · rw [if_neg h1]
      show (List.range' (i + 1) (N - (i + 1))).foldl
          (fun J j => dictInsert J (i, j) (entry w i j)) init.2 key = _
      rw [annealHJ_inner]
      by_cases h2 : key.1 = i ∧ key.2 ∈ List.range' (i + 1) (N - (i + 1))
      · rw [if_pos h2,
            if_pos ⟨List.mem_cons.mpr (Or.inl h2.1), by rw [h2.1]; exact h2.2⟩, h2.1]
      · rw [if_neg h2, if_neg (by
          intro hc
          rcases List.mem_cons.mp hc.1 with h4 | h4
          · exact h2 ⟨h4, by rw [← h4]; exact hc.2⟩
          · exact h1 ⟨h4, hc.2⟩)]

lemma annealHJ_h_spec (w : List (List ℝ)) (n i : Nat) :
    (annealHJ w n).1 i = if i < n then some 0 else none := by
  unfold annealHJ
  rw [annealHJ_h w n (List.range n) (emptyDict, emptyDict) i]
  by_cases h : i < n
  · rw [if_pos (List.mem_range.mpr h), if_pos h]
  · rw [if_neg (fun hc => h (List.mem_range.mp hc)), if_neg h]
    rfl

lemma annealHJ_J_spec (w : List (List ℝ)) (n i j : Nat) :
    (annealHJ w n).2 (i, j) = if i < j ∧ j < n then some (entry w i j) else none := by
  unfold annealHJ
  rw [annealHJ_J w n (List.range n) (emptyDict, emptyDict) (i, j)]
  have hiff : ((i, j).1 ∈ List.range n ∧
      (i, j).2 ∈ List.range' ((i, j).1 + 1) (n - ((i, j).1 + 1))) ↔ (i < j ∧ j < n) := by
    simp only [List.mem_range, List.mem_range'_1]
    omega
  by_cases h : i < j ∧ j < n
  · rw [if_pos (hiff.mpr h), if_pos h]
  · rw [if_neg (fun hc => h (hiff.mp hc)), if_neg h]
    rfl

/-- Claim C10: the Ising model handed to the annealer has zero on-site field
`h i = some 0` for every `i < n` (and none elsewhere), couplings defined
exactly on the strictly upper-triangular pairs with `J (i, j) = w[i, j]`, and
`w` is the matrix of pairwise distances of the data. -/
theorem anneal_ising_model {α : Type} (dist : α → α → ℝ) (data : Nat → α) (n : Nat) :
    (∀ i : Nat, (annealHJ (wMatrix dist data n) n).1 i =
      if i < n then some 0 else none) ∧
    (∀ i j : Nat, (annealHJ (wMatrix dist data n) n).2 (i, j) =
      if i < j ∧ j < n then some (entry (wMatrix dist data n) i j) else none) ∧
    ∀ i j : Nat, i < n → j < n →
      entry (wMatrix dist data n) i j = dist (data i) (data j) :=
  ⟨fun i => annealHJ_h_spec (wMatrix dist data n) n i,
   fun i j => annealHJ_J_spec (wMatrix dist data n) n i j,
   fun i j hi hj => entry_wMatrix dist data n i j hi hj⟩

/-- Witness for C10 at `n = 2`, `data i = i`, `dist x y = x + y`. -/
theorem anneal_ising_model_witness :
    entry (wMatrix (fun x y : ℕ => ((x + y : ℕ) : ℝ)) (fun i => i) 2) 0 1 =
      ((0 + 1 : ℕ) : ℝ) :=
  (anneal_ising_model (fun x y : ℕ => ((x + y : ℕ) : ℝ)) (fun i => i) 2).2.2 0 1
    (by decide) (by decide)

end QCStudy
